import Mathlib

/-!
# Verification of the dars DAP2 server core

A shallow embedding, in Lean 4, of the core algorithms of the `dars`
repository: the XDR array packer (`src/dap2/dods.rs`), the hyperslab count
computation of the DDS builder (`src/nc/dds.rs`), the chunked variable
streamer (`src/nc/dods.rs`), the join-existing aggregation walk and the
coordinate-variable cache (`dars/src/ncml/mod.rs`), the mtime staleness check
(`dars/src/hdf5/mod.rs`), and the DAS text builder (`dap2/src/das.rs`).

Rust machine integers (`usize`, `u32`) are modelled as `Nat`, with explicit
`% 2 ^ 32` where the source truncates via `as u32`.  Rust panics (index
arithmetic underflow, `panic!`-style aborts) are modelled as `Option.none`;
fallible paths are modelled with `Except`.  Async streams are modelled as
the list of items they yield, in order.
-/

namespace Dars

/-! ## XDR packer: `src/src/dap2/dods.rs`

`encode_value` packs a single (scalar) value; `encode_array` yields the DAP2
length word twice and then the packed chunks.  Element packing
(big-endian byteswap, `XdrPack`) is abstracted as a per-element byte
rendering `ep : α → List Nat`; packing a chunk in place concatenates the
per-element renderings (`BigEndian::from_slice_*` swaps each element of the
slice, widths preserved). -/

/-- The four big-endian bytes of a `u32` value. -/
def u32be (n : Nat) : List Nat :=
  [n / 2 ^ 24 % 256, n / 2 ^ 16 % 256, n / 2 ^ 8 % 256, n % 256]

/-- `std::u32::MAX`. -/
def u32max : Nat := 2 ^ 32 - 1

/-- `encode_value` (src/src/dap2/dods.rs, lines 43-52): packs a single value;
`ensure!(v.len() == 1)` is the error path. -/
def encode_value {α : Type} (ep : α → List Nat) (v : List α) :
    Except String (List Nat) :=
  if v.length = 1 then .ok (v.flatMap ep)
  else .error "value with more than one element"

/-- `encode_array` (src/src/dap2/dods.rs, lines 58-90), as the list of items
the produced stream yields.  Note that the source's `yield Err(...)` on
overflow is not followed by a `return`: the generator then still packs
`vec![sz as u32, sz as u32]` (the cast truncates) and yields it, followed by
the data chunks. -/
def encode_array {α : Type} (ep : α → List Nat) (len : Option Nat)
    (v : List (Except String (List α))) : List (Except String (List Nat)) :=
  (match len with
   | some sz =>
     (if sz > u32max then
        [Except.error "XDR cannot send slices larger than 4294967295"]
      else []) ++
     [Except.ok (u32be (sz % 2 ^ 32) ++ u32be (sz % 2 ^ 32))]
   | none => []) ++
  v.map (fun c =>
    match c with
    | .ok val => .ok (val.flatMap ep)
    | .error e => .error e)

/-! ## Hyperslab count of the DDS builder: `NcDds::count_slab`
(src/src/nc/dds.rs, lines 16-26).

The source computes, per slab arity: `1`, `slab[1] - slab[0]`, and
`slab[2] - slab[0] / slab[1]` (Rust precedence: the division binds first),
and `panic!`s on any other arity.  Panics — the explicit `panic!`, subtraction
underflow, and division by zero — are modelled as `none`. -/

/-- `NcDds::count_slab` (src/src/nc/dds.rs, lines 16-26). -/
def count_slab (slab : List Nat) : Option Nat :=
  if slab.length = 1 then
    some 1
  else if slab.length = 2 then
    if slab.getD 0 0 ≤ slab.getD 1 0 then
      some (slab.getD 1 0 - slab.getD 0 0)
    else none
  else if slab.length = 3 then
    if slab.getD 1 0 ≠ 0 ∧ slab.getD 0 0 / slab.getD 1 0 ≤ slab.getD 2 0 then
      some (slab.getD 2 0 - slab.getD 0 0 / slab.getD 1 0)
    else none
  else none

/-! ## The `xdr` generator: `src/src/nc/dods.rs`, lines 192-245.

For a projected variable with an explicit hyperslab, the generator computes
indices and counts from the parsed slabs, yields
`Err("Strides not implemented yet")` when any slab has more than two
components — and then, the `yield Err` not being followed by a `return`,
falls through unconditionally to `pack_var` and yields its whole stream.
The `pack_var` output is abstracted here as the given list `pack_stream`. -/

/-- The stride handling and fall-through of `xdr`
(src/src/nc/dods.rs, lines 207-244), as the list of items the generator
yields for one variable carrying the parsed slabs `slabs`. -/
def xdr_variable (slabs : List (List Nat))
    (pack_stream : List (Except String (List Nat))) :
    List (Except String (List Nat)) :=
  (if slabs.any (fun s => s.length > 2) then
    [Except.error "Strides not implemented yet"]
   else []) ++ pack_stream

/-! ## Staleness check and DODS assembly

`Hdf5Dataset::variable` (src/dars/src/hdf5/mod.rs, lines 101-151) and
`NcmlDataset::variable` (src/dars/src/ncml/mod.rs, lines 218-241) compare the
file's current mtime with the mtime recorded at open, and return an error
before constructing the stream on any mismatch; otherwise the returned
stream yields the XDR length word (for a non-scalar) and then the data
chunks.  Modification times are modelled as `Nat`. -/

/-- Modelled from the spec: `dap2::dods::xdr_length` (dap2/src/dods.rs is not
under src/) renders the total element count as a 4-byte big-endian unsigned
word emitted twice (the same convention `encode_array` implements in
src/src/dap2/dods.rs). -/
def xdr_length (len : Nat) : List Nat :=
  u32be (len % 2 ^ 32) ++ u32be (len % 2 ^ 32)

/-- The stream built by `Hdf5Dataset::variable` once the staleness check has
passed (src/dars/src/hdf5/mod.rs, lines 132-150): the length word first when
the variable is not a scalar, then the data chunks. -/
def variable_stream (scalar : Bool) (len : Nat) (data : List (List Nat)) :
    List (List Nat) :=
  (if scalar then [] else [xdr_length len]) ++ data

/-- The staleness gate of `Hdf5Dataset::variable`
(src/dars/src/hdf5/mod.rs, lines 107-111): any mtime mismatch fails the
request before the stream exists. -/
def hdf5_variable (mtime_now mtime_open : Nat) (scalar : Bool) (len : Nat)
    (data : List (List Nat)) : Except String (List (List Nat)) :=
  if mtime_now ≠ mtime_open then .error "has changed on disk"
  else .ok (variable_stream scalar len data)

/-- The bytes of the literal separator `"\nData:\r\n"`. -/
def data_separator : List Nat := [10, 68, 97, 116, 97, 58, 13, 10]

/-- Modelled from the spec: the DODS request handler
(dars/src/data/handlers.rs is not under src/).  Per §4.8 the body is the
constrained DDS text, the separator, then each projected variable's stream;
per §7 staleness is pre-checked before body bytes flush, so every variable
stream is obtained (running the per-variable staleness gate) before any
byte of the body is assembled. -/
def collect_streams (mtime_now mtime_open : Nat) :
    List (Bool × Nat × List (List Nat)) →
    Except String (List (List (List Nat)))
  | [] => .ok []
  | v :: vs => do
    let s ← hdf5_variable mtime_now mtime_open v.1 v.2.1 v.2.2
    let rest ← collect_streams mtime_now mtime_open vs
    pure (s :: rest)

/-- Modelled from the spec: DODS body assembly (§4.8): DDS bytes, the
separator, then the variable streams in constraint order. -/
def dods_body (dds : List Nat) (streams : List (List (List Nat))) :
    List Nat :=
  dds ++ data_separator ++ (streams.map (fun s => s.flatMap id)).flatMap id

/-- Modelled from the spec: the DODS request path — collect every projected
variable's stream (each running the staleness gate), then emit the body. -/
def dods_response (mtime_now mtime_open : Nat) (dds : List Nat)
    (vars : List (Bool × Nat × List (List Nat))) : Except String (List Nat) :=
  match collect_streams mtime_now mtime_open vars with
  | .error e => .error e
  | .ok streams => .ok (dods_body dds streams)

/-! ## Join-existing aggregation walk: `NcmlDataset::variable`
(src/dars/src/ncml/mod.rs, lines 272-317, the `ABC::C` branch).

The loop walks the members (already sorted by ascending rank) with a running
offset `member_start`, and for each member that intersects the requested
outer range emits a per-member slab: the full index/count vectors with the
outer component replaced.  The walk is modelled as the ordered list of
`(member index, member indices, member counts)` triples for which a member
stream is opened; concatenating the per-member streams in this list order
is exactly what the generator does. -/

/-- The member walk of `NcmlDataset::variable` (src/dars/src/ncml/mod.rs,
lines 274-316), transcribed from the code: the three `if` branches in
source order, with `break` on `indices[0] + counts[0] < member_start`
(strict, as in the source). -/
def agg_walk_code (i0 c0 : Nat) (irest crest : List Nat) :
    Nat → Nat → List Nat → List (Nat × List Nat × List Nat)
  | _, _, [] => []
  | idx, mstart, n :: ns =>
    if i0 ≥ mstart ∧ i0 < mstart + n then
      (idx, (i0 - mstart) :: irest, min c0 (n - (i0 - mstart)) :: crest) ::
        agg_walk_code i0 c0 irest crest (idx + 1) (mstart + n) ns
    else if i0 < mstart ∧ mstart < i0 + c0 then
      (idx, 0 :: irest, min (i0 + c0 - mstart) n :: crest) ::
        agg_walk_code i0 c0 irest crest (idx + 1) (mstart + n) ns
    else if i0 + c0 < mstart then []
    else agg_walk_code i0 c0 irest crest (idx + 1) (mstart + n) ns

/-- The member walk as the claim states it: the member containing
`indices[0]` gets local start `indices[0] − m_start` and local count
`min(counts[0], n_i − local_start)`; a continuation member
(`indices[0] < m_start < indices[0] + counts[0]`) gets local start 0 and
local count `min(indices[0] + counts[0] − m_start, n_i)`; walking stops
once `indices[0] + counts[0] ≤ m_start`; other dimensions pass through
unchanged. -/
def agg_walk_claim (i0 c0 : Nat) (irest crest : List Nat) :
    Nat → Nat → List Nat → List (Nat × List Nat × List Nat)
  | _, _, [] => []
  | idx, mstart, n :: ns =>
    if mstart ≤ i0 ∧ i0 < mstart + n then
      (idx, (i0 - mstart) :: irest, min c0 (n - (i0 - mstart)) :: crest) ::
        agg_walk_claim i0 c0 irest crest (idx + 1) (mstart + n) ns
    else if i0 < mstart ∧ mstart < i0 + c0 then
      (idx, 0 :: irest, min (i0 + c0 - mstart) n :: crest) ::
        agg_walk_claim i0 c0 irest crest (idx + 1) (mstart + n) ns
    else if i0 + c0 ≤ mstart then []
    else agg_walk_claim i0 c0 irest crest (idx + 1) (mstart + n) ns

/-! ## Coordinate-variable cache: `CoordinateVariable`
(src/dars/src/ncml/mod.rs, lines 351-414).

`CoordinateVariable::from` reads the full aggregation-dimension dataset of
every member, in member order, into one byte buffer; `stream` serves a
`(start, count)` request by byte-slicing the buffer.  A member's coordinate
data is modelled as its list of elements, each element being its list of
bytes (the element width is the dataset's `dsize`). -/

/-- A member of an aggregate, as the coordinate cache sees it: its length
`n` along the join dimension and the elements of its coordinate dataset. -/
structure NcmlMemberC where
  n : Nat
  coord_elems : List (List Nat)

/-- The byte buffer built by `CoordinateVariable::from`
(src/dars/src/ncml/mod.rs, lines 358-395): each member's full coordinate
dataset, concatenated in member order. -/
def coordinate_cache (members : List NcmlMemberC) : List Nat :=
  members.flatMap (fun m => m.coord_elems.flatMap id)

/-- `CoordinateVariable::stream` (src/dars/src/ncml/mod.rs, lines 397-413):
checks rank 1, computes `start = indices[0]*dsz` and
`end = (indices[0]+counts[0])*dsz`, errors when `end` exceeds the buffer,
and otherwise returns the byte slice `[start, end)` in one chunk. -/
def coordinate_stream (bytes : List Nat) (dsz : Nat)
    (indices counts : List Nat) : Except String (List Nat) :=
  if indices.length = 1 ∧ counts.length = 1 then
    let start := indices.getD 0 0 * dsz
    let stop := (indices.getD 0 0 + counts.getD 0 0) * dsz
    if stop ≤ bytes.length then .ok ((bytes.drop start).take (stop - start))
    else .error "slab out of range"
  else .error "coordinate dimension is always 1 dimension"

/-! ## DAS builder: `dap2/src/das.rs`

Text is modelled as `List Char`.  Attribute values carry their payloads;
float payloads are carried as their already-rendered `{:+E}` text (floating
point rendering is not modelled), integer payloads render via `toString`,
matching Rust's `Display`.  `s.escape_default()` is modelled for the ASCII
escapes.  Note the source's `match` has explicit arms for `Str`, `Float`,
`Floats`, `Double`, `Doubles`, `Short`, `Int`, `Ints`, `Uchar`, `Ignored`
and `Unimplemented`; `Shorts` falls into the wildcard arm and renders as the
empty string, like the sentinels. -/

/-- The attribute value variants of dap2/src/das.rs, lines 18-32. -/
inductive AttrValue where
  | str (s : List Char)
  | float (rendered : List Char)
  | floats (rendered : List (List Char))
  | double (rendered : List Char)
  | doubles (rendered : List (List Char))
  | short (i : Int)
  | shorts (is : List Int)
  | int (i : Int)
  | ints (is : List Int)
  | uchar (n : Nat)
  | unimplemented (reason : List Char)
  | ignored (reason : List Char)

/-- An attribute: name and typed value (dap2/src/das.rs, lines 12-16). -/
structure Attribute where
  name : List Char
  value : AttrValue

/-- `char::escape_default` for the escapes relevant to DAS text. -/
def escape_char (c : Char) : List Char :=
  if c = '"' then ['\\', '"']
  else if c = '\\' then ['\\', '\\']
  else if c = '\n' then ['\\', 'n']
  else if c = '\t' then ['\\', 't']
  else if c = '\r' then ['\\', 'r']
  else [c]

/-- `str::escape_default`, character by character. -/
def escape_default (s : List Char) : List Char := s.flatMap escape_char

/-- `INDENT = 4` spaces (dap2/src/das.rs, line 49). -/
def das_indent : List Char := "    ".toList

/-- `Das::format_attr` (dap2/src/das.rs, lines 92-150): one rendered
attribute, or the empty string for `Ignored`, `Unimplemented` and the
wildcard arm (which catches `Shorts`). -/
def format_attr (a : Attribute) : List Char :=
  match a.value with
  | .str s =>
    das_indent ++ "String ".toList ++ a.name ++ " \"".toList ++
      escape_default s ++ "\";".toList
  | .float r =>
    das_indent ++ "Float32 ".toList ++ a.name ++ " ".toList ++ r ++
      ";".toList
  | .floats rs =>
    das_indent ++ "Float32 ".toList ++ a.name ++ " ".toList ++
      List.intercalate ", ".toList rs ++ ";".toList
  | .double r =>
    das_indent ++ "Float64 ".toList ++ a.name ++ " ".toList ++ r ++
      ";".toList
  | .doubles rs =>
    das_indent ++ "Float64 ".toList ++ a.name ++ " ".toList ++
      List.intercalate ", ".toList rs ++ ";".toList
  | .short i =>
    das_indent ++ "Int16 ".toList ++ a.name ++ " ".toList ++
      (toString i).toList ++ ";".toList
  | .int i =>
    das_indent ++ "Int32 ".toList ++ a.name ++ " ".toList ++
      (toString i).toList ++ ";".toList
  | .ints is =>
    das_indent ++ "Int32 ".toList ++ a.name ++ " ".toList ++
      List.intercalate ", ".toList (is.map (fun i => (toString i).toList)) ++
      ";".toList
  | .uchar n =>
    das_indent ++ "Byte ".toList ++ a.name ++ " ".toList ++
      (toString n).toList ++ ";".toList
  | .ignored _ => []
  | .unimplemented _ => []
  | .shorts _ => []

/-- A `ToDas` source: global attributes and, per variable, its attributes
(dap2/src/das.rs, lines 35-47). -/
structure DasSource where
  globals : List Attribute
  vars : List (List Char × List Attribute)

/-- The DAS text built by `impl From<T> for Das` (dap2/src/das.rs,
lines 51-83): the global block only when global attributes exist, one block
per variable always, and per attribute the line
`indent ++ format_attr(a) ++ "\n"`. -/
def das_from (d : DasSource) : List Char :=
  "Attributes \x7b\n".toList ++
  (if d.globals.isEmpty then [] else
    das_indent ++ "NC_GLOBAL \x7b\n".toList ++
    (d.globals.map (fun a => das_indent ++ format_attr a ++ "\n".toList)).flatten ++
    das_indent ++ "\x7d\n".toList) ++
  (d.vars.map (fun v =>
    "    ".toList ++ v.1 ++ " \x7b\n".toList ++
    (v.2.map (fun a => das_indent ++ format_attr a ++ "\n".toList)).flatten ++
    "    \x7d\n".toList)).flatten ++
  "\x7d".toList

/-- Whether an attribute value is in the dropped set: the two sentinels and
any kind without an explicit arm (`Shorts`, i.e. `Int16[]`). -/
def attr_dropped (v : AttrValue) : Bool :=
  match v with
  | .ignored _ => true
  | .unimplemented _ => true
  | .shorts _ => true
  | _ => false

/-- The DAP2 type tag of a supported attribute value, per the spec's data
model (§3). -/
def attr_tag (v : AttrValue) : List Char :=
  match v with
  | .str _ => "String".toList
  | .float _ => "Float32".toList
  | .floats _ => "Float32".toList
  | .double _ => "Float64".toList
  | .doubles _ => "Float64".toList
  | .short _ => "Int16".toList
  | .int _ => "Int32".toList
  | .ints _ => "Int32".toList
  | .uchar _ => "Byte".toList
  | _ => []

/-- The rendered value of a supported attribute, per the spec (§4.2):
strings C-escaped in double quotes, arrays comma-space separated, integers
decimal, floats as their signed-exponential rendering. -/
def attr_value_text (v : AttrValue) : List Char :=
  match v with
  | .str s => "\"".toList ++ escape_default s ++ "\"".toList
  | .float r => r
  | .floats rs => List.intercalate ", ".toList rs
  | .double r => r
  | .doubles rs => List.intercalate ", ".toList rs
  | .short i => (toString i).toList
  | .int i => (toString i).toList
  | .ints is =>
    List.intercalate ", ".toList (is.map (fun i => (toString i).toList))
  | .uchar n => (toString n).toList
  | _ => []

/-- The amended claim's per-attribute builder line: a supported variant
contributes exactly one `<TypeTag> <name> <value>;` line (at depth two of
indentation); a dropped variant contributes no attribute text, only the
builder's indent-and-newline wrapper. -/
def attr_line_claim (a : Attribute) : List Char :=
  if attr_dropped a.value then "    \n".toList
  else
    "        ".toList ++ attr_tag a.value ++ " ".toList ++ a.name ++
      " ".toList ++ attr_value_text a.value ++ ";\n".toList

/-- The DAS text as the amended claim describes it: the same block
structure, with each attribute contributing `attr_line_claim`. -/
def das_claim (d : DasSource) : List Char :=
  "Attributes \x7b\n".toList ++
  (if d.globals.isEmpty then [] else
    das_indent ++ "NC_GLOBAL \x7b\n".toList ++
    (d.globals.map attr_line_claim).flatten ++
    das_indent ++ "\x7d\n".toList) ++
  (d.vars.map (fun v =>
    "    ".toList ++ v.1 ++ " \x7b\n".toList ++
    (v.2.map attr_line_claim).flatten ++
    "    \x7d\n".toList)).flatten ++
  "\x7d".toList

/-! ## Chunked variable streamer: `NcDataset::stream_variable`
(src/src/nc/dods.rs, lines 34-112).

The streamer reads the requested slab in a row-major walk: a per-dimension
`jump` is derived from the chunk-size budget by a reversed scan over the
counts; the loop clamps the jump at the slab boundary (`mjump`), reads the
box at `indices + offset` of extents `mjump`, and advances `offset` in
mixed radix over `counts` by adding the number of elements just read to the
linearised offset; it stops when the carry escapes the most significant
position.  The underlying variable is abstracted as a total function
`A : List Nat → α` from multi-indices to values; `values_to(start, count)`
reads the box `[start, start + count)` in row-major order.  The source
fixes the budget `CHUNK_SZ = 10 * 1024 * 1024`; it is a parameter here,
quantified over in the chunk-independence claim. -/

/-- The linearised offset `Σ offset[d] * dim_sz[d]`, with `dim_sz` the
suffix products of `counts` (src/src/nc/dods.rs, lines 68-73 and 101). -/
def lin : List Nat → List Nat → Nat
  | c :: cs, o :: os => o * cs.prod + lin cs os
  | _, _ => 0

/-- The mixed-radix write-back of the carry over `counts`, least significant
(last) digit first (src/src/nc/dods.rs, lines 102-105): returns the new
offset digits and the carry that escaped the most significant position. -/
def decompose : List Nat → Nat → List Nat × Nat
  | [], n => ([], n)
  | c :: cs, n =>
    let p := decompose cs n
    (p.2 % c :: p.1, p.2 / c)

/-- The mixed-radix digits of `n` over `cs`. -/
def demix (cs : List Nat) (n : Nat) : List Nat := (decompose cs n).1

/-- All multi-indices of the box `[start, start + counts)` in row-major
(lexicographic) order. -/
def box_indices : List Nat → List Nat → List (List Nat)
  | s :: ss, c :: cs =>
    (List.range c).flatMap
      (fun i => (box_indices ss cs).map (fun t => (s + i) :: t))
  | _, _ => [[]]

/-- `values_to(start, count)`: the row-major read of a box from the
variable `A`. -/
def read_box {α : Type} (A : List Nat → α) (start counts : List Nat) :
    List α :=
  (box_indices start counts).map A

/-- The clamped jump `mjump` (src/src/nc/dods.rs, lines 78-79). -/
def mjump_of : List Nat → List Nat → List Nat → List Nat
  | o :: os, j :: js, c :: cs =>
    (if o + j > c then c - o else j) :: mjump_of os js cs
  | _, _, _ => []

/-- Pointwise addition (`indices + offset`, src/src/nc/dods.rs, line 82). -/
def zip_add (a b : List Nat) : List Nat := List.zipWith (· + ·) a b

/-- The streaming loop (src/src/nc/dods.rs, lines 77-110), as the list of
buffers it yields.  Each iteration advances the linearised offset by at
least one element, so `counts.prod` iterations always suffice; the fuel
argument makes the recursion structural. -/
def stream_loop {α : Type} (A : List Nat → α) (indices counts jump : List Nat) :
    Nat → List Nat → List (List α)
  | 0, _ => []
  | fuel + 1, offset =>
    let mj := mjump_of offset jump counts
    let buf := read_box A (zip_add indices offset) mj
    let d := decompose counts (lin counts offset + mj.prod)
    if 0 < d.2 then [buf]
    else buf :: stream_loop A indices counts jump fuel d.1

/-- The reversed scan computing the per-dimension jump from the chunk-size
budget (src/src/nc/dods.rs, lines 55-65): over the reversed counts, with
accumulator `n`, a dimension gets `1` once the budget is filled and
otherwise `min (chunk / n) c`, multiplying the accumulator. -/
def jump_rev (chunk : Nat) : Nat → List Nat → List Nat
  | _, [] => []
  | n, c :: cs =>
    if n ≥ chunk then 1 :: jump_rev chunk n cs
    else min (chunk / n) c :: jump_rev chunk (n * min (chunk / n) c) cs

/-- The jump vector: scan the reversed counts, then reverse back
(src/src/nc/dods.rs, lines 55-65). -/
def jump_of (chunk : Nat) (counts : List Nat) : List Nat :=
  (jump_rev chunk 1 counts.reverse).reverse

/-- `NcDataset::stream_variable` for an explicit slab: offset starts at
zero, and the loop runs with the computed jump (src/src/nc/dods.rs,
lines 34-112). -/
def stream_variable {α : Type} (A : List Nat → α) (chunk : Nat)
    (indices counts : List Nat) : List (List α) :=
  stream_loop A indices counts (jump_of chunk counts) counts.prod
    (List.replicate counts.length 0)

end Dars

namespace Dars

/-- The escaped carry of the mixed-radix write-back is the quotient by the
full radix product. -/
theorem decompose_snd (cs : List Nat) (n : Nat) :
    (decompose cs n).2 = n / cs.prod := by
  induction cs generalizing n with
  | nil => simp [decompose]
  | cons c cs ih =>
    simp only [decompose, ih, List.prod_cons]
    rw [Nat.div_div_eq_div_mul, Nat.mul_comm]

/-- The digit list has one digit per radix position. -/
theorem demix_length (cs : List Nat) (n : Nat) :
    (demix cs n).length = cs.length := by
  induction cs generalizing n with
  | nil => rfl
  | cons c cs ih => simp [demix, decompose] at ih ⊢; exact ih n

/-- Unfolding one digit of `demix`. -/
theorem demix_cons (c : Nat) (cs : List Nat) (n : Nat) :
    demix (c :: cs) n = n / cs.prod % c :: demix cs n := by
  simp [demix, decompose, decompose_snd]

/-- The digits of zero are all zero. -/
theorem decompose_zero (cs : List Nat) :
    decompose cs 0 = (List.replicate cs.length 0, 0) := by
  induction cs with
  | nil => rfl
  | cons c cs ih => simp [decompose, ih, List.replicate_succ]

/-- Recombining the digits of `n` yields `n` modulo the radix product. -/
theorem lin_demix_mod (cs : List Nat) (n : Nat) :
    lin cs (demix cs n) = n % cs.prod := by
  induction cs generalizing n with
  | nil => simp [lin, demix, decompose, Nat.mod_one]
  | cons c cs ih =>
    rw [demix_cons]
    simp only [lin, List.prod_cons]
    rw [ih, Nat.mul_comm c cs.prod, Nat.mod_mul, Nat.add_comm,
      Nat.mul_comm cs.prod _]

/-- Recombining the digits of an in-range `n` yields `n`. -/
theorem lin_demix (cs : List Nat) (n : Nat) (h : n < cs.prod) :
    lin cs (demix cs n) = n := by
  rw [lin_demix_mod, Nat.mod_eq_of_lt h]

/-- The digits only depend on the value modulo the radix product. -/
theorem demix_mod (cs : List Nat) (n : Nat) (h : ∀ c ∈ cs, 1 ≤ c) :
    demix cs n = demix cs (n % cs.prod) := by
  induction cs generalizing n with
  | nil => simp [demix, decompose]
  | cons c cs ih =>
    have hc : 1 ≤ c := h c (by simp)
    have hcs : ∀ x ∈ cs, 1 ≤ x := fun x hx => h x (by simp [hx])
    have hP : 0 < cs.prod := List.prod_pos (fun x hx => hcs x hx)
    rw [demix_cons, demix_cons]
    have hdvd : cs.prod ∣ (c :: cs).prod := by
      rw [List.prod_cons]; exact dvd_mul_left cs.prod c
    congr 1
    · -- the head digit
      rw [List.prod_cons, Nat.mul_comm c cs.prod, Nat.mod_mul,
        Nat.mul_comm cs.prod (n / cs.prod % c),
        Nat.add_mul_div_right _ _ hP,
        Nat.div_eq_of_lt (Nat.mod_lt _ hP), Nat.zero_add,
        Nat.mod_eq_of_lt (Nat.mod_lt _ hc)]
    · -- the remaining digits
      rw [ih _ hcs, ih (n % (c :: cs).prod) hcs,
        Nat.mod_mod_of_dvd _ hdvd]

/-- The write-back over an appended radix processes the low (right) part
first and feeds its carry into the high (left) part. -/
theorem decompose_append (P S : List Nat) (n : Nat) :
    decompose (P ++ S) n =
      ((decompose P (decompose S n).2).1 ++ (decompose S n).1,
       (decompose P (decompose S n).2).2) := by
  induction P with
  | nil => simp [decompose]
  | cons c P ih => simp [decompose, ih]

/-- Digits of an aligned value plus a small remainder: the quotient lands
whole in the carry and the remainder gives the digits. -/
theorem decompose_mul_add (S : List Nat) (q r : Nat)
    (hS : ∀ c ∈ S, 1 ≤ c) (hr : r < S.prod) :
    decompose S (q * S.prod + r) = (demix S r, q) := by
  have hP : 0 < S.prod := List.prod_pos (fun x hx => hS x hx)
  have hsnd : (decompose S (q * S.prod + r)).2 = q := by
    rw [decompose_snd, Nat.add_comm, Nat.add_mul_div_right _ _ hP,
      Nat.div_eq_of_lt hr, Nat.zero_add]
  have hfst : (decompose S (q * S.prod + r)).1 = demix S r := by
    show demix S (q * S.prod + r) = demix S r
    rw [demix_mod _ _ hS, Nat.add_comm, Nat.add_mul_mod_self_right,
      Nat.mod_eq_of_lt hr]
  exact Prod.ext hfst hsnd

/-- Every digit is below its radix position. -/
theorem demix_forall_lt (cs : List Nat) (n : Nat) (h : ∀ c ∈ cs, 1 ≤ c) :
    List.Forall₂ (· < ·) (demix cs n) cs := by
  induction cs generalizing n with
  | nil => simp [demix, decompose]
  | cons c cs ih =>
    rw [demix_cons]
    exact List.Forall₂.cons
      (Nat.mod_lt _ (h c (by simp)))
      (ih n (fun x hx => h x (by simp [hx])))

/-- Splitting `range (c * K)` into `c` blocks of `K`. -/
theorem range_mul_flatMap (c K : Nat) :
    List.range (c * K) =
      (List.range c).flatMap (fun i => (List.range K).map (fun r => i * K + r)) := by
  induction c with
  | zero => simp
  | succ c ih =>
    rw [Nat.succ_mul, List.range_add, ih, List.range_succ,
      List.flatMap_append]
    simp [Nat.mul_comm]

/-- The row-major box enumeration is the mixed-radix enumeration of the
linear positions. -/
theorem box_indices_eq (start counts : List Nat)
    (hlen : start.length = counts.length) (hpos : ∀ c ∈ counts, 1 ≤ c) :
    box_indices start counts =
      (List.range counts.prod).map (fun n => zip_add start (demix counts n)) := by
  induction counts generalizing start with
  | nil =>
    rw [List.length_nil, List.length_eq_zero] at hlen
    subst hlen
    simp [box_indices, demix, decompose, zip_add]
  | cons c cs ih =>
    match start, hlen with
    | s :: ss, hlen =>
      have hlen' : ss.length = cs.length := by simpa using hlen
      have hc : 1 ≤ c := hpos c (by simp)
      have hcs : ∀ x ∈ cs, 1 ≤ x := fun x hx => hpos x (by simp [hx])
      have hK : 0 < cs.prod := List.prod_pos (fun x hx => hcs x hx)
      rw [List.prod_cons, range_mul_flatMap, List.map_flatMap]
      show (List.range c).flatMap
          (fun i => (box_indices ss cs).map (fun t => (s + i) :: t)) = _
      rw [ih ss hlen' hcs]
      refine List.flatMap_congr ?_
      intro i hi
      have hic : i < c := List.mem_range.mp hi
      rw [List.map_map, List.map_map]
      refine List.map_congr_left ?_
      intro r hr
      have hrK : r < cs.prod := List.mem_range.mp hr
      show (s + i) :: zip_add ss (demix cs r) =
        zip_add (s :: ss) (demix (c :: cs) (i * cs.prod + r))
      rw [demix_cons]
      have hdiv : (i * cs.prod + r) / cs.prod = i := by
        rw [Nat.add_comm, Nat.add_mul_div_right _ _ hK,
          Nat.div_eq_of_lt hrK, Nat.zero_add]
      have hdig : demix cs (i * cs.prod + r) = demix cs r := by
        rw [demix_mod _ _ hcs, Nat.add_comm, Nat.add_mul_mod_self_right,
          Nat.mod_eq_of_lt hrK]
      rw [hdiv, Nat.mod_eq_of_lt hic, hdig]
      rfl

/-- Pointwise addition is associative. -/
theorem zip_add_assoc (a : List Nat) :
    ∀ b d, zip_add (zip_add a b) d = zip_add a (zip_add b d) := by
  induction a with
  | nil => intro b d; rfl
  | cons x a ih =>
    intro b d
    cases b with
    | nil => rfl
    | cons y b =>
      cases d with
      | nil => rfl
      | cons z d =>
        show (x + y + z) :: zip_add (zip_add a b) d = _
        rw [ih, Nat.add_assoc]
        rfl

/-- Adding zeros on the right is the identity. -/
theorem zip_add_zero_right (l : List Nat) :
    zip_add l (List.replicate l.length 0) = l := by
  induction l with
  | nil => rfl
  | cons x l ih =>
    show (x + 0) :: zip_add l (List.replicate l.length 0) = x :: l
    rw [ih, Nat.add_zero]

/-- Adding zeros on the left is the identity. -/
theorem zip_add_zero_left (l : List Nat) :
    zip_add (List.replicate l.length 0) l = l := by
  induction l with
  | nil => rfl
  | cons x l ih =>
    show (0 + x) :: zip_add (List.replicate l.length 0) l = x :: l
    rw [ih, Nat.zero_add]

/-- Over the outer all-ones part of the jump, in-range offset digits clamp
to ones. -/
theorem mjump_ones {oP P : List Nat} (h : List.Forall₂ (· < ·) oP P) :
    ∀ orest jrest crest,
      mjump_of (oP ++ orest) (List.replicate P.length 1 ++ jrest)
        (P ++ crest) =
      List.replicate P.length 1 ++ mjump_of orest jrest crest := by
  induction h with
  | nil => intro orest jrest crest; rfl
  | @cons o c oP P hoc _ ih =>
    intro orest jrest crest
    show (if o + 1 > c then c - o else 1) :: _ = _
    rw [if_neg (by omega), List.length_cons, List.replicate_succ,
      List.cons_append]
    show _ :: mjump_of (oP ++ orest) (List.replicate P.length 1 ++ jrest)
      (P ++ crest) = _
    rw [ih]

/-- Over the trailing full part of the jump, zero offsets pass the counts
through. -/
theorem mjump_full (S : List Nat) :
    mjump_of (List.replicate S.length 0) S S = S := by
  induction S with
  | nil => rfl
  | cons c S ih =>
    show (if 0 + c > c then c - 0 else c) :: _ = _
    rw [if_neg (by omega), ih]

/-- Digits of `u * S.prod + js` over the split radix `P ++ c :: S`: the `S`
part gets the digits of `js`, the `c` position gets `u % c`, and the `P`
part gets the digits of `u / c`. -/
theorem demix_split (P : List Nat) (c : Nat) (S : List Nat) (u js : Nat)
    (hS : ∀ x ∈ S, 1 ≤ x) (hjs : js < S.prod) :
    demix (P ++ c :: S) (u * S.prod + js) =
      demix P (u / c) ++ (u % c) :: demix S js := by
  have hsplit : P ++ c :: S = (P ++ [c]) ++ S := by simp
  rw [hsplit]
  show (decompose ((P ++ [c]) ++ S) (u * S.prod + js)).1 = _
  rw [decompose_append, decompose_mul_add S u js hS hjs]
  show (decompose (P ++ [c]) u).1 ++ demix S js = _
  rw [decompose_append]
  show (decompose P (decompose [c] u).2).1 ++ (decompose [c] u).1 ++ _ = _
  have hc1 : decompose [c] u = ([u % c], u / c) := rfl
  rw [hc1]
  simp [demix]

/-- A segment of `range T` is a shifted `range`. -/
theorem range_segment (T L s : Nat) (h : L + s ≤ T) :
    ((List.range T).drop L).take s = (List.range s).map (L + ·) := by
  have hT : T = L + (T - L) := by omega
  rw [hT, List.range_add, List.drop_left' (List.length_range L),
    ← List.map_take, List.take_range]
  have : min s (T - L) = s := by omega
  rw [this]

/-- The number of positions of a box read is the product of the counts. -/
theorem length_read_box {α : Type} (A : List Nat → α)
    (start counts : List Nat) (hlen : start.length = counts.length)
    (hpos : ∀ c ∈ counts, 1 ≤ c) :
    (read_box A start counts).length = counts.prod := by
  rw [read_box, box_indices_eq start counts hlen hpos, List.length_map,
    List.length_map, List.length_range]

/-- One clamped step stays inside the slab. -/
theorem slab_step_bound (Pprod c D k m : Nat) (hc : 1 ≤ c)
    (hodm : k % c + m ≤ c) (hk : k < Pprod * c) :
    k * D + m * D ≤ Pprod * (c * D) := by
  have hq : k / c < Pprod := (Nat.div_lt_iff_lt_mul hc).mpr hk
  have hdm : c * (k / c) + k % c = k := Nat.div_add_mod k c
  have hsucc : c * (k / c + 1) = c * (k / c) + c := Nat.mul_succ c _
  have hkm : k + m ≤ c * (k / c + 1) := by omega
  have hkm2 : k + m ≤ c * Pprod :=
    le_trans hkm (Nat.mul_le_mul_left c hq)
  calc k * D + m * D = (k + m) * D := (Nat.add_mul k m D).symm
    _ ≤ (c * Pprod) * D := Nat.mul_le_mul_right D hkm2
    _ = Pprod * (c * D) := by ring

/-- The buffer read at an aligned offset with the clamped jump is exactly
the next segment of the row-major traversal of the whole slab. -/
theorem read_box_segment {α : Type} (A : List Nat → α) (indices P : List Nat)
    (c : Nat) (S : List Nat) (k m : Nat)
    (hP : ∀ x ∈ P, 1 ≤ x) (hc : 1 ≤ c) (hS : ∀ x ∈ S, 1 ≤ x)
    (hidx : indices.length = (P ++ c :: S).length)
    (hm : 0 < m) (hodm : k % c + m ≤ c) (hk : k < P.prod * c) :
    read_box A (zip_add indices (demix (P ++ c :: S) (k * S.prod)))
        (List.replicate P.length 1 ++ m :: S) =
      ((read_box A indices (P ++ c :: S)).drop (k * S.prod)).take
        (m * S.prod) := by
  have hD : 0 < S.prod := List.prod_pos (fun x hx => hS x hx)
  have hposcounts : ∀ x ∈ P ++ c :: S, 1 ≤ x := by
    intro x hx
    rcases List.mem_append.mp hx with hx | hx
    · exact hP x hx
    · rcases List.mem_cons.mp hx with rfl | hx
      · exact hc
      · exact hS x hx
  have hposmj : ∀ x ∈ List.replicate P.length 1 ++ m :: S, 1 ≤ x := by
    intro x hx
    rcases List.mem_append.mp hx with hx | hx
    · exact le_of_eq (List.eq_of_mem_replicate hx).symm
    · rcases List.mem_cons.mp hx with rfl | hx
      · exact hm
      · exact hS x hx
  have hT : (P ++ c :: S).prod = P.prod * (c * S.prod) := by
    rw [List.prod_append, List.prod_cons]
  have hLe : k * S.prod + m * S.prod ≤ (P ++ c :: S).prod := by
    rw [hT]; exact slab_step_bound P.prod c S.prod k m hc hodm hk
  have hstart : (zip_add indices (demix (P ++ c :: S) (k * S.prod))).length =
      (List.replicate P.length 1 ++ m :: S).length := by
    rw [zip_add, List.length_zipWith _ _ _, hidx, demix_length, min_self]
    simp
  have hmjprod : (List.replicate P.length 1 ++ m :: S).prod = m * S.prod := by
    rw [List.prod_append, List.prod_cons, List.prod_replicate, one_pow,
      Nat.one_mul]
  rw [read_box, read_box,
    box_indices_eq _ _ hstart hposmj,
    box_indices_eq indices _ hidx hposcounts,
    ← List.map_drop, ← List.map_drop, ← List.map_take, ← List.map_take,
    range_segment _ _ _ hLe, hmjprod, List.map_map, List.map_map,
    List.map_map]
  refine List.map_congr_left ?_
  intro j hj
  have hjm : j < m * S.prod := List.mem_range.mp hj
  have hjd : j / S.prod < m := (Nat.div_lt_iff_lt_mul hD).mpr hjm
  have hjs : j % S.prod < S.prod := Nat.mod_lt _ hD
  show A (zip_add (zip_add indices (demix (P ++ c :: S) (k * S.prod)))
      (demix (List.replicate P.length 1 ++ m :: S) j)) =
    A (zip_add indices (demix (P ++ c :: S) (k * S.prod + j)))
  refine congrArg A ?_
  rw [zip_add_assoc]
  refine congrArg (zip_add indices) ?_
  -- digits of the jump radix
  have hj' : j = (j / S.prod) * S.prod + j % S.prod := by
    rw [Nat.mul_comm]; exact (Nat.div_add_mod j S.prod).symm
  have hmjdig : demix (List.replicate P.length 1 ++ m :: S) j =
      List.replicate P.length 0 ++ (j / S.prod) :: demix S (j % S.prod) := by
    conv_lhs => rw [hj']
    rw [demix_split _ _ _ _ _ hS hjs, Nat.div_eq_of_lt hjd,
      Nat.mod_eq_of_lt hjd]
    have : demix (List.replicate P.length 1) 0 =
        List.replicate P.length 0 := by
      rw [demix, decompose_zero, List.length_replicate]
    rw [this]
  -- digits of the aligned offset
  have hoff : demix (P ++ c :: S) (k * S.prod) =
      demix P (k / c) ++ (k % c) :: List.replicate S.length 0 := by
    have h0 : k * S.prod = k * S.prod + 0 := rfl
    rw [h0, demix_split _ _ _ _ _ hS hD]
    have : demix S 0 = List.replicate S.length 0 := by
      rw [demix, decompose_zero]
    rw [this]
  -- digits of the advanced position
  have hdm : c * (k / c) + k % c = k := Nat.div_add_mod k c
  have hadd : k * S.prod + j = (k + j / S.prod) * S.prod + j % S.prod := by
    conv_lhs => rw [hj']
    rw [Nat.add_mul]; ring
  have hsum : k % c + j / S.prod < c := by omega
  have hmod : (k + j / S.prod) % c = k % c + j / S.prod := by
    have h1 : k + j / S.prod = c * (k / c) + (k % c + j / S.prod) := by omega
    rw [h1, Nat.mul_add_mod, Nat.mod_eq_of_lt hsum]
  have hdiv : (k + j / S.prod) / c = k / c := by
    have h1 : k + j / S.prod = c * (k / c) + (k % c + j / S.prod) := by omega
    rw [h1, Nat.mul_add_div hc, Nat.div_eq_of_lt hsum, Nat.add_zero]
  have htgt : demix (P ++ c :: S) (k * S.prod + j) =
      demix P (k / c) ++ (k % c + j / S.prod) :: demix S (j % S.prod) := by
    rw [hadd, demix_split _ _ _ _ _ hS hjs, hmod, hdiv]
  rw [hmjdig, hoff, htgt, zip_add,
    List.zipWith_append _ _ _ _ _
      (by rw [demix_length, List.length_replicate])]
  show zip_add (demix P (k / c)) (List.replicate P.length 0) ++
      ((k % c + j / S.prod) :: zip_add (List.replicate S.length 0)
        (demix S (j % S.prod))) = _
  have h1 : zip_add (demix P (k / c)) (List.replicate P.length 0) =
      demix P (k / c) := by
    rw [show P.length = (demix P (k / c)).length from (demix_length _ _).symm,
      zip_add_zero_right]
  have h2 : zip_add (List.replicate S.length 0) (demix S (j % S.prod)) =
      demix S (j % S.prod) := by
    rw [show S.length = (demix S (j % S.prod)).length from
      (demix_length _ _).symm, zip_add_zero_left]
  rw [h1, h2]

/-- The streaming loop, started at any aligned position `k * S.prod` of the
slab with enough fuel, yields exactly the rest of the row-major traversal:
each iteration reads the next contiguous segment and the mixed-radix carry
lands on the next aligned position. -/
theorem stream_loop_flatten {α : Type} (A : List Nat → α)
    (indices P : List Nat) (c : Nat) (S : List Nat) (p : Nat)
    (hP : ∀ x ∈ P, 1 ≤ x) (hc : 1 ≤ c) (hS : ∀ x ∈ S, 1 ≤ x)
    (hp1 : 1 ≤ p) (hpc : p ≤ c)
    (hidx : indices.length = (P ++ c :: S).length) :
    ∀ fuel k, k * S.prod < (P ++ c :: S).prod →
      (P ++ c :: S).prod - k * S.prod ≤ fuel →
      (stream_loop A indices (P ++ c :: S)
          (List.replicate P.length 1 ++ p :: S) fuel
          (demix (P ++ c :: S) (k * S.prod))).flatten =
        (read_box A indices (P ++ c :: S)).drop (k * S.prod) := by
  have hD : 0 < S.prod := List.prod_pos (fun x hx => hS x hx)
  have hT : (P ++ c :: S).prod = P.prod * (c * S.prod) := by
    rw [List.prod_append, List.prod_cons]
  have hposcounts : ∀ x ∈ P ++ c :: S, 1 ≤ x := by
    intro x hx
    rcases List.mem_append.mp hx with hx | hx
    · exact hP x hx
    · rcases List.mem_cons.mp hx with rfl | hx
      · exact hc
      · exact hS x hx
  intro fuel
  induction fuel with
  | zero => intro k hk hfuel; omega
  | succ fuel ih =>
    intro k hk hfuel
    have hkc : k < P.prod * c := by
      have h1 : k * S.prod < (P.prod * c) * S.prod := by
        rw [Nat.mul_assoc, ← hT]; exact hk
      exact Nat.lt_of_mul_lt_mul_right h1
    have hod : k % c < c := Nat.mod_lt _ hc
    have hm : 0 < min p (c - k % c) := by omega
    have hodm : k % c + min p (c - k % c) ≤ c := by omega
    -- the aligned offset digits
    have hoff : demix (P ++ c :: S) (k * S.prod) =
        demix P (k / c) ++ (k % c) :: List.replicate S.length 0 := by
      have h0 : k * S.prod = k * S.prod + 0 := rfl
      rw [h0, demix_split _ _ _ _ _ hS hD]
      have h1 : demix S 0 = List.replicate S.length 0 := by
        rw [demix, decompose_zero]
      rw [h1]
    -- the clamped jump
    have hmjeq : mjump_of (demix (P ++ c :: S) (k * S.prod))
        (List.replicate P.length 1 ++ p :: S) (P ++ c :: S) =
        List.replicate P.length 1 ++ min p (c - k % c) :: S := by
      rw [hoff, mjump_ones (demix_forall_lt P (k / c) hP)]
      show _ ++ ((if k % c + p > c then c - k % c else p) ::
        mjump_of (List.replicate S.length 0) S S) = _
      rw [mjump_full]
      have hhead : (if k % c + p > c then c - k % c else p) =
          min p (c - k % c) := by
        rw [Nat.min_def]; split_ifs <;> omega
      rw [hhead]
    have hmjprod : (List.replicate P.length 1 ++
        min p (c - k % c) :: S).prod = min p (c - k % c) * S.prod := by
      rw [List.prod_append, List.prod_cons, List.prod_replicate, one_pow,
        Nat.one_mul]
    have hlin : lin (P ++ c :: S) (demix (P ++ c :: S) (k * S.prod)) =
        k * S.prod := lin_demix _ _ hk
    have hsum : (k + min p (c - k % c)) * S.prod =
        k * S.prod + min p (c - k % c) * S.prod := Nat.add_mul _ _ _
    have hbound : (k + min p (c - k % c)) * S.prod ≤ (P ++ c :: S).prod := by
      rw [hsum, hT]
      exact slab_step_bound P.prod c S.prod k _ hc hodm hkc
    have hbuf : read_box A
        (zip_add indices (demix (P ++ c :: S) (k * S.prod)))
        (List.replicate P.length 1 ++ min p (c - k % c) :: S) =
        ((read_box A indices (P ++ c :: S)).drop (k * S.prod)).take
          (min p (c - k % c) * S.prod) :=
      read_box_segment A indices P c S k _ hP hc hS hidx hm hodm hkc
    have hrblen : (read_box A indices (P ++ c :: S)).length =
        (P ++ c :: S).prod := length_read_box A indices _ hidx hposcounts
    rw [stream_loop]
    simp only [hmjeq, hlin, hmjprod, hbuf]
    rw [← hsum]
    by_cases heq : (k + min p (c - k % c)) * S.prod = (P ++ c :: S).prod
    · -- the carry escapes: last buffer
      have hsnd : (decompose (P ++ c :: S)
          ((k + min p (c - k % c)) * S.prod)).2 = 1 := by
        rw [decompose_snd, heq,
          Nat.div_self (by omega : 0 < (P ++ c :: S).prod)]
      rw [if_pos (by rw [hsnd]; omega)]
      have hlen2 : ((read_box A indices (P ++ c :: S)).drop
          (k * S.prod)).length ≤ min p (c - k % c) * S.prod := by
        rw [List.length_drop, hrblen]; omega
      simp [List.take_of_length_le hlen2]
    · -- the carry stays inside: recurse on the next aligned position
      have hlt : (k + min p (c - k % c)) * S.prod < (P ++ c :: S).prod := by
        omega
      have hsnd : (decompose (P ++ c :: S)
          ((k + min p (c - k % c)) * S.prod)).2 = 0 := by
        rw [decompose_snd, Nat.div_eq_of_lt hlt]
      rw [if_neg (by rw [hsnd]; omega)]
      have hmD : 1 ≤ min p (c - k % c) * S.prod :=
        Nat.mul_le_mul hm hD
      have hih := ih (k + min p (c - k % c)) hlt (by omega)
      show (((read_box A indices (P ++ c :: S)).drop (k * S.prod)).take
          (min p (c - k % c) * S.prod) ::
        stream_loop A indices (P ++ c :: S)
          (List.replicate P.length 1 ++ p :: S) fuel
          (decompose (P ++ c :: S)
            ((k + min p (c - k % c)) * S.prod)).1).flatten = _
      rw [List.flatten_cons]
      have hfst : (decompose (P ++ c :: S)
          ((k + min p (c - k % c)) * S.prod)).1 =
          demix (P ++ c :: S) ((k + min p (c - k % c)) * S.prod) := rfl
      rw [hfst, hih]
      have hdd : (read_box A indices (P ++ c :: S)).drop
          ((k + min p (c - k % c)) * S.prod) =
          (((read_box A indices (P ++ c :: S)).drop (k * S.prod)).drop
            (min p (c - k % c) * S.prod)) := by
        rw [List.drop_drop]
        congr 1
      rw [hdd, List.take_append_drop]

/-- Once the scan's accumulator exceeds half the budget, every remaining
jump entry is 1. -/
theorem jump_rev_ones (chunk : Nat) :
    ∀ (l : List Nat) (n : Nat), chunk < 2 * n → (∀ x ∈ l, 1 ≤ x) →
      jump_rev chunk n l = List.replicate l.length 1 := by
  intro l
  induction l with
  | nil => intro n _ _; rfl
  | cons c l ih =>
    intro n h hl
    have hc : 1 ≤ c := hl c (by simp)
    have hl' : ∀ x ∈ l, 1 ≤ x := fun x hx => hl x (by simp [hx])
    by_cases hn : n ≥ chunk
    · show (if n ≥ chunk then _ else _) = _
      rw [if_pos hn, ih n h hl', List.length_cons, List.replicate_succ]
    · have hn0 : 0 < n := by omega
      have hd2 : chunk / n < 2 := (Nat.div_lt_iff_lt_mul hn0).mpr h
      have hd1 : 1 ≤ chunk / n := (Nat.one_le_div_iff hn0).mpr (by omega)
      have hdiv : chunk / n = 1 := by omega
      show (if n ≥ chunk then _
        else min (chunk / n) c :: jump_rev chunk (n * min (chunk / n) c) l)
        = _
      rw [if_neg hn, hdiv, Nat.min_eq_left hc, Nat.mul_one, ih n h hl',
        List.length_cons, List.replicate_succ]

/-- The jump scan over a nonempty reversed count list splits as a full
prefix, one clamped entry, then all ones. -/
theorem jump_rev_shape (chunk : Nat) (hchunk : 1 ≤ chunk) :
    ∀ (l : List Nat) (n : Nat), 1 ≤ n → l ≠ [] → (∀ x ∈ l, 1 ≤ x) →
      ∃ F q R pp, l = F ++ q :: R ∧
        jump_rev chunk n l = F ++ pp :: List.replicate R.length 1 ∧
        1 ≤ pp ∧ pp ≤ q := by
  intro l
  induction l with
  | nil => intro n _ hne _; exact absurd rfl hne
  | cons c l ih =>
    intro n hn _ hl
    have hc : 1 ≤ c := hl c (by simp)
    have hl' : ∀ x ∈ l, 1 ≤ x := fun x hx => hl x (by simp [hx])
    by_cases hncase : n ≥ chunk
    · refine ⟨[], c, l, 1, rfl, ?_, le_refl 1, hc⟩
      show (if n ≥ chunk then 1 :: jump_rev chunk n l else _) = _
      rw [if_pos hncase, jump_rev_ones chunk l n (by omega) hl']
      rfl
    · have hnlt : n < chunk := by omega
      have hn0 : 0 < n := by omega
      have hd1 : 1 ≤ chunk / n := (Nat.one_le_div_iff hn0).mpr (by omega)
      by_cases hfull : c ≤ chunk / n
      · have hmin : min (chunk / n) c = c := Nat.min_eq_right hfull
        cases l with
        | nil =>
          refine ⟨[], c, [], c, rfl, ?_, hc, le_refl c⟩
          show (if n ≥ chunk then _
            else min (chunk / n) c :: jump_rev chunk (n * min (chunk / n) c) [])
            = [c]
          rw [if_neg hncase, hmin]
          rfl
        | cons c2 l2 =>
          obtain ⟨F, q, R, pp, heq, hjr, hpp1, hppq⟩ :=
            ih (n * c) (Nat.mul_le_mul hn hc) (by simp) hl'
          refine ⟨c :: F, q, R, pp, by rw [heq]; rfl, ?_, hpp1, hppq⟩
          show (if n ≥ chunk then _
            else min (chunk / n) (c) ::
              jump_rev chunk (n * min (chunk / n) c) (c2 :: l2)) = _
          rw [if_neg hncase, hmin, hjr]
          rfl
      · have hmin : min (chunk / n) c = chunk / n :=
          Nat.min_eq_left (by omega)
        refine ⟨[], c, l, chunk / n, rfl, ?_, hd1, by omega⟩
        show (if n ≥ chunk then _
          else min (chunk / n) c :: jump_rev chunk (n * min (chunk / n) c) l)
          = _
        rw [if_neg hncase, hmin]
        have hdm : n * (chunk / n) + chunk % n = chunk := Nat.div_add_mod _ _
        have hmd : chunk % n < n := Nat.mod_lt _ hn0
        have hnn : n ≤ n * (chunk / n) := Nat.le_mul_of_pos_right n hd1
        rw [jump_rev_ones chunk l (n * (chunk / n)) (by omega) hl']
        rfl

/-- The jump vector splits the counts as all-ones outer dimensions, one
clamped dimension, and the full trailing counts. -/
theorem jump_of_shape (chunk : Nat) (counts : List Nat) (hchunk : 1 ≤ chunk)
    (hpos : ∀ x ∈ counts, 1 ≤ x) (hne : counts ≠ []) :
    ∃ P c S pp, counts = P ++ c :: S ∧
      jump_of chunk counts = List.replicate P.length 1 ++ pp :: S ∧
      1 ≤ pp ∧ pp ≤ c := by
  have hrne : counts.reverse ≠ [] := by
    simpa using hne
  have hrpos : ∀ x ∈ counts.reverse, 1 ≤ x := by
    intro x hx; exact hpos x (List.mem_reverse.mp hx)
  obtain ⟨F, q, R, pp, heq, hjr, h1, h2⟩ :=
    jump_rev_shape chunk hchunk counts.reverse 1 (le_refl 1) hrne hrpos
  refine ⟨R.reverse, q, F.reverse, pp, ?_, ?_, h1, h2⟩
  · have hcr : counts = counts.reverse.reverse :=
      (List.reverse_reverse counts).symm
    rw [hcr, heq, List.reverse_append, List.reverse_cons,
      List.append_assoc, List.singleton_append]
  · rw [jump_of, hjr, List.reverse_append, List.reverse_cons,
      List.reverse_replicate, List.append_assoc, List.singleton_append,
      List.length_reverse]

/-- Once the running offset has reached the end of the requested range, the
code walk emits nothing more (its `break` fires only on strict overshoot,
but the skipped members match no branch). -/
theorem agg_walk_code_past (i0 c0 : Nat) (irest crest : List Nat)
    (h : 1 ≤ c0) :
    ∀ ns idx mstart, i0 + c0 ≤ mstart →
      agg_walk_code i0 c0 irest crest idx mstart ns = [] := by
  intro ns
  induction ns with
  | nil => intro idx mstart _; rfl
  | cons n ns ih =>
    intro idx mstart hm
    have h1 : ¬ (i0 ≥ mstart ∧ i0 < mstart + n) := by omega
    have h2 : ¬ (i0 < mstart ∧ mstart < i0 + c0) := by omega
    by_cases h3 : i0 + c0 < mstart
    · simp [agg_walk_code, h1, h2, h3]
    · simp [agg_walk_code, h1, h2, h3]
      exact ih (idx + 1) (mstart + n) (by omega)

/-- C3: for a read of an aggregated variable joined on its first dimension,
the member walk of `NcmlDataset::variable` emits per-member slabs exactly as
the claim states them: the containing member gets
`(indices[0] − m_start, min(counts[0], n_i − local_start))`, a continuation
member gets `(0, min(indices[0] + counts[0] − m_start, n_i))`, the walk
emits nothing from `indices[0] + counts[0] ≤ m_start` on, non-outer
dimensions pass through unchanged, and the per-member streams are
concatenated in member (ascending-rank) order. -/
theorem C3_agg_walk (i0 c0 : Nat) (irest crest : List Nat)
    (ns : List Nat) (h : 1 ≤ c0) :
    agg_walk_code i0 c0 irest crest 0 0 ns =
      agg_walk_claim i0 c0 irest crest 0 0 ns := by
  suffices hgen : ∀ ns idx mstart,
      agg_walk_code i0 c0 irest crest idx mstart ns =
        agg_walk_claim i0 c0 irest crest idx mstart ns from hgen ns 0 0
  intro ns
  induction ns with
  | nil => intro idx mstart; rfl
  | cons n ns ih =>
    intro idx mstart
    by_cases h1 : mstart ≤ i0 ∧ i0 < mstart + n
    · have h1' : i0 ≥ mstart ∧ i0 < mstart + n := h1
      simp [agg_walk_code, agg_walk_claim, h1, h1', ih]
    · have h1' : ¬ (i0 ≥ mstart ∧ i0 < mstart + n) := h1
      by_cases h2 : i0 < mstart ∧ mstart < i0 + c0
      · simp [agg_walk_code, agg_walk_claim, h1, h1', h2, ih]
      · by_cases h3 : i0 + c0 < mstart
        · have h3' : i0 + c0 ≤ mstart := by omega
          simp [agg_walk_code, agg_walk_claim, h1, h1', h2, h3, h3']
        · by_cases h4 : i0 + c0 = mstart
          · have h3' : i0 + c0 ≤ mstart := by omega
            simp only [agg_walk_code, agg_walk_claim]
            rw [if_neg h1', if_neg h2, if_neg h3, if_neg h1, if_neg h2,
              if_pos h3']
            exact agg_walk_code_past i0 c0 irest crest h ns (idx + 1)
              (mstart + n) (by omega)
          · have h3' : ¬ i0 + c0 ≤ mstart := by omega
            simp [agg_walk_code, agg_walk_claim, h1, h1', h2, h3, h3', ih]

/-- C3 witness: the spec's aggregation-split scenario — members of outer
lengths 31 and 28, request `V[30:32]` with one trailing dimension of
count 5: the last element of member 0 then the first two of member 1. -/
theorem C3_agg_walk_witness :
    agg_walk_code 30 3 [0] [5] 0 0 [31, 28] =
      agg_walk_claim 30 3 [0] [5] 0 0 [31, 28] ∧
    agg_walk_code 30 3 [0] [5] 0 0 [31, 28] =
      [(0, [30, 0], [1, 5]), (1, [0, 0], [2, 5])] :=
  ⟨C3_agg_walk 30 3 [0] [5] [31, 28] (by decide), by decide⟩

/-- The total length of equal-length byte lists is their number times the
common width. -/
theorem sum_map_length_of_uniform (w : Nat) (l : List (List Nat))
    (h : ∀ e ∈ l, e.length = w) : (l.map List.length).sum = l.length * w := by
  induction l with
  | nil => simp
  | cons e l ih =>
    have he : e.length = w := h e (by simp)
    have hl : ∀ x ∈ l, x.length = w := fun x hx => h x (by simp [hx])
    simp [he, ih hl, Nat.succ_mul, Nat.add_comm]

/-- C6: the coordinate cache built on open has byte length
`Σ n_i × element_width`, and `CoordinateVariable::stream` serves the join
dimension under `(start, count)` by returning exactly the cache byte slice
`[start*w, (start+count)*w)`, erroring when `(start+count)*w` exceeds the
cache length. -/
theorem C6_coordinate_cache (members : List NcmlMemberC) (w : Nat)
    (hm : ∀ m ∈ members,
      m.coord_elems.length = m.n ∧ ∀ e ∈ m.coord_elems, e.length = w) :
    (coordinate_cache members).length =
      (members.map (fun m => m.n * w)).sum ∧
    (∀ i0 c0, (i0 + c0) * w ≤ (coordinate_cache members).length →
      coordinate_stream (coordinate_cache members) w [i0] [c0] =
        .ok (((coordinate_cache members).drop (i0 * w)).take (c0 * w))) ∧
    (∀ i0 c0, (coordinate_cache members).length < (i0 + c0) * w →
      coordinate_stream (coordinate_cache members) w [i0] [c0] =
        .error "slab out of range") := by
  refine ⟨?_, ?_, ?_⟩
  · induction members with
    | nil => simp [coordinate_cache]
    | cons m ms ih =>
      have h1 := (hm m (by simp)).1
      have h2 := (hm m (by simp)).2
      have hms : ∀ x ∈ ms,
          x.coord_elems.length = x.n ∧ ∀ e ∈ x.coord_elems, e.length = w :=
        fun x hx => hm x (by simp [hx])
      simp [coordinate_cache, List.flatMap_cons] at ih ⊢
      rw [show (List.length ∘ fun m : NcmlMemberC => m.coord_elems.flatten) =
          (fun m : NcmlMemberC => m.coord_elems.flatten.length) from rfl]
        at ih ⊢
      rw [ih hms, sum_map_length_of_uniform w _ h2, h1]
  · intro i0 c0 hle
    have hslice : (i0 + c0) * w - i0 * w = c0 * w := by
      rw [Nat.add_mul]; omega
    simp [coordinate_stream, hle, hslice]
  · intro i0 c0 hgt
    simp [coordinate_stream, Nat.not_le_of_lt hgt]

/-- C6 witness: two members of lengths 2 and 1 with element width 2; the
cache has 6 bytes, the slice `[2, 8)` request errs, the slice `[2, 6)`
request returns bytes 2..5. -/
theorem C6_coordinate_cache_witness :
    (coordinate_cache [⟨2, [[1, 2], [3, 4]]⟩, ⟨1, [[5, 6]]⟩]).length =
      ([⟨2, [[1, 2], [3, 4]]⟩, ⟨1, [[5, 6]]⟩].map
        (fun m : NcmlMemberC => m.n * 2)).sum ∧
    coordinate_stream
        (coordinate_cache [⟨2, [[1, 2], [3, 4]]⟩, ⟨1, [[5, 6]]⟩]) 2
        [1] [2] =
      .ok (((coordinate_cache
        [⟨2, [[1, 2], [3, 4]]⟩, ⟨1, [[5, 6]]⟩]).drop (1 * 2)).take (2 * 2)) ∧
    coordinate_stream
        (coordinate_cache [⟨2, [[1, 2], [3, 4]]⟩, ⟨1, [[5, 6]]⟩]) 2
        [2] [2] =
      .error "slab out of range" :=
  ⟨(C6_coordinate_cache [⟨2, [[1, 2], [3, 4]]⟩, ⟨1, [[5, 6]]⟩] 2
      (by decide)).1,
   (C6_coordinate_cache [⟨2, [[1, 2], [3, 4]]⟩, ⟨1, [[5, 6]]⟩] 2
      (by decide)).2.1 1 2 (by decide),
   (C6_coordinate_cache [⟨2, [[1, 2], [3, 4]]⟩, ⟨1, [[5, 6]]⟩] 2
      (by decide)).2.2 2 2 (by decide)⟩

/-- C1: for a non-scalar variable the DODS stream begins with the 4-byte
big-endian total element count emitted exactly twice, followed by the packed
data bytes (`encode_array`, src/src/dap2/dods.rs, lines 58-90); for a scalar
it is only the packed bytes of the single value, with no length word
(`encode_value`, lines 43-52, reached by the empty-dimensions branch of
`pack_var_impl`, src/src/nc/dods.rs, lines 179-189). -/
theorem C1_dods_length_word {α : Type} (ep : α → List Nat) (sz : Nat)
    (chunks : List (List α)) (h : sz ≤ u32max) :
    encode_array ep (some sz) (chunks.map .ok) =
      .ok (u32be sz ++ u32be sz) :: chunks.map (fun c => .ok (c.flatMap ep)) ∧
    ∀ x : α, encode_value ep [x] = .ok (ep x) := by
  constructor
  · have hlt : sz < 2 ^ 32 := by
      have : u32max < 2 ^ 32 := by decide
      omega
    have hsz : sz % 2 ^ 32 = sz := Nat.mod_eq_of_lt hlt
    simp only [encode_array, if_neg (by omega : ¬ sz > u32max), hsz,
      List.nil_append, List.map_map]
    rfl
  · intro x
    simp [encode_value]

/-- C1 witness: a two-chunk non-scalar stream and a scalar value at concrete
inputs. -/
theorem C1_dods_length_word_witness :
    (encode_array (fun n : Nat => [n]) (some 3) ([[5, 6], [7]].map .ok) =
      .ok (u32be 3 ++ u32be 3) ::
        [[5, 6], [7]].map (fun c => .ok (c.flatMap (fun n : Nat => [n])))) ∧
    encode_value (fun n : Nat => [n]) [9] = .ok [9] :=
  ⟨(C1_dods_length_word (fun n : Nat => [n]) 3 [[5, 6], [7]] (by decide)).1,
   (C1_dods_length_word (fun n : Nat => [n]) 3 [[5, 6], [7]] (by decide)).2 9⟩

/-- C8: the claim says an element count above `2^32 − 1` is fatal — an error
and nothing after it.  In the code (`encode_array`,
src/src/dap2/dods.rs, lines 67-90) the `yield Err` is not followed by a
`return`: at the failing input `len = 2^32` the stream yields the overflow
error and then still yields the (truncated-to-zero) length word and the data
chunk. -/
theorem C8_overflow_stream_continues :
    encode_array (fun n : Nat => [n]) (some (2 ^ 32)) [.ok [1]] =
      [.error "XDR cannot send slices larger than 4294967295",
       .ok (u32be 0 ++ u32be 0), .ok [1]] := by
  rfl

/-- C5: the claim says a three-integer hyperslab is rejected and the
variable streamer is never invoked.  In the code (`xdr`,
src/src/nc/dods.rs, lines 207-244) the `yield Err` is not followed by a
`return`: for the parsed stride slab `[0, 2, 10]` the generator yields the
stride error and then still yields the whole `pack_var` stream. -/
theorem C5_stride_stream_continues
    (pack_stream : List (Except String (List Nat))) :
    xdr_variable [[0, 2, 10]] pack_stream =
      Except.error "Strides not implemented yet" :: pack_stream := by
  simp [xdr_variable]

/-- C7: on every data request the file's mtime is compared with the value
recorded at open (src/dars/src/hdf5/mod.rs, lines 107-111;
src/dars/src/ncml/mod.rs, lines 223-227): any mismatch fails the request
with an error before any body byte — including the DDS — is assembled,
while a matching mtime leaves the response exactly the plain body. -/
theorem C7_staleness_gate (mtime_now mtime_open : Nat) (dds : List Nat)
    (v : Bool × Nat × List (List Nat))
    (vs : List (Bool × Nat × List (List Nat))) :
    dods_response mtime_now mtime_open dds (v :: vs) =
      if mtime_now = mtime_open then
        .ok (dods_body dds
          ((v :: vs).map (fun x => variable_stream x.1 x.2.1 x.2.2)))
      else .error "has changed on disk" := by
  by_cases h : mtime_now = mtime_open
  · subst h
    simp only [if_pos rfl]
    have hc : ∀ ws : List (Bool × Nat × List (List Nat)),
        collect_streams mtime_now mtime_now ws =
          .ok (ws.map (fun x => variable_stream x.1 x.2.1 x.2.2)) := by
      intro ws
      induction ws with
      | nil => rfl
      | cons w ws ih =>
        simp [collect_streams, hdf5_variable, ih, Bind.bind, Except.bind,
          Pure.pure, Except.pure]
    simp [dods_response, hc (v :: vs)]
  · simp [dods_response, collect_streams, hdf5_variable, h, Bind.bind,
      Except.bind]

/-- C4: for a valid slab request (every count at least 1, one index per
count) and any chunk-size budget, the concatenation of the buffers yielded
by the chunked variable streamer equals the row-major traversal of the
requested slab — the mixed-radix offset walk with carry over the counts
stops exactly when the carry escapes the most significant position.  The
right-hand side does not mention the chunk size, so the streamed sequence
is identical for every permissible budget (the source fixes
`CHUNK_SZ = 10 MiB`); the XDR packing applied downstream by `encode_array`
maps each buffer element-wise and therefore preserves this equality of the
concatenated byte sequence. -/
theorem C4_stream_row_major {α : Type} (A : List Nat → α) (chunk : Nat)
    (indices counts : List Nat) (hchunk : 1 ≤ chunk)
    (hcounts : ∀ c ∈ counts, 1 ≤ c)
    (hlen : indices.length = counts.length) :
    (stream_variable A chunk indices counts).flatten =
      read_box A indices counts := by
  by_cases hnil : counts = []
  · subst hnil
    simp [stream_variable, stream_loop, jump_of, jump_rev, read_box,
      box_indices, mjump_of, lin, decompose, zip_add]
  · obtain ⟨P, c, S, pp, hceq, hjeq, hp1, hpc⟩ :=
      jump_of_shape chunk counts hchunk hcounts hnil
    have hcounts' : ∀ x ∈ P ++ c :: S, 1 ≤ x := by
      rw [← hceq]; exact hcounts
    have hP : ∀ x ∈ P, 1 ≤ x := fun x hx =>
      hcounts' x (List.mem_append_left _ hx)
    have hc : 1 ≤ c := hcounts' c (List.mem_append_right _ (by simp))
    have hS : ∀ x ∈ S, 1 ≤ x := fun x hx =>
      hcounts' x (List.mem_append_right _ (by simp [hx]))
    have hidx : indices.length = (P ++ c :: S).length := by
      rw [← hceq]; exact hlen
    have hTpos : 0 < (P ++ c :: S).prod :=
      List.prod_pos (fun x hx => hcounts' x hx)
    have h0 : List.replicate counts.length 0 =
        demix (P ++ c :: S) (0 * S.prod) := by
      rw [Nat.zero_mul, demix, decompose_zero, hceq]
    rw [stream_variable, hjeq, h0, hceq]
    have hmain := stream_loop_flatten A indices P c S pp hP hc hS hp1 hpc
      hidx ((P ++ c :: S).prod) 0
      (by rw [Nat.zero_mul]; exact hTpos)
      (by omega)
    rw [hmain, Nat.zero_mul, List.drop_zero]

/-- C4 witness: a concrete three-dimensional slab streamed with budget 7,
checked against the row-major traversal. -/
theorem C4_stream_row_major_witness :
    (stream_variable (fun l => l) 7 [3, 1, 0] [3, 2, 5]).flatten =
      read_box (fun l => l) [3, 1, 0] [3, 2, 5] :=
  C4_stream_row_major (fun l => l) 7 [3, 1, 0] [3, 2, 5] (by decide)
    (by decide) (by decide)

/-- C9 counterexample: the claim says a sentinel attribute produces no
output line — so adding an `Ignored` attribute would leave the DAS text
unchanged.  It does not: the builder wraps every attribute, dropped or not,
in `indent ++ ... ++ "\n"`, so the `Ignored` attribute leaves an
indent-only line behind. -/
theorem C9_ignored_leaves_blank_line :
    das_from ⟨[], [("v".toList, [⟨"a".toList, .ignored ("x".toList)⟩])]⟩ ≠
      das_from ⟨[], [("v".toList, [])]⟩ := by
  decide

/-- C9 (amended): sentinel and unknown attribute values (`Ignored`,
`Unimplemented`, and any kind without an explicit arm, such as `Shorts`)
produce no attribute text — `format_attr` renders them as the empty string,
though the builder still emits their indent-and-newline wrapper line —
while every supported variant produces exactly one
`<TypeTag> <name> <value>;` line. -/
theorem C9_das_lines (d : DasSource) : das_from d = das_claim d := by
  have hline : ∀ a : Attribute,
      das_indent ++ format_attr a ++ "\n".toList = attr_line_claim a := by
    intro a
    obtain ⟨name, value⟩ := a
    cases value <;>
      simp only [format_attr, attr_line_claim, attr_dropped, attr_tag,
        attr_value_text, das_indent, List.append_assoc] <;> rfl
  have hmap : (fun a : Attribute =>
      das_indent ++ format_attr a ++ "\n".toList) = attr_line_claim :=
    funext hline
  rw [das_from, das_claim, hmap]

/-- C2: the claim states `[i:j]` yields count `j − i + 1`; the code of
`NcDds::count_slab` returns `slab[1] - slab[0]`.  Evaluating the code at the
failing input `[0, 9]` (the parse of `[0:9]`): the result is `9`, not the
`10` required by the claim and by the spec's inclusive-endpoint rule. -/
theorem C2_count_slab_two_element_is_exclusive : count_slab [0, 9] = some 9 := by
  decide

/-- C10: `NcDds::count_slab` is partial at its boundary: for every slab
vector whose length is not 1, 2 or 3 — including the empty slab and any slab
of four or more components — it panics (modelled `none`) instead of
returning a count. -/
theorem C10_count_slab_boundary (slab : List Nat)
    (h1 : slab.length ≠ 1) (h2 : slab.length ≠ 2) (h3 : slab.length ≠ 3) :
    count_slab slab = none := by
  unfold count_slab
  simp [h1, h2, h3]

/-- C10 witness: the empty slab and a four-component slab both panic. -/
theorem C10_count_slab_boundary_witness :
    count_slab [] = none ∧ count_slab [1, 2, 3, 4] = none :=
  ⟨C10_count_slab_boundary [] (by decide) (by decide) (by decide),
   C10_count_slab_boundary [1, 2, 3, 4] (by decide) (by decide) (by decide)⟩

end Dars
